import Mathlib

/-!
# Verification of the streaming transcript accumulator and audio mixer

Shallow embedding of the sentence-accumulator state machine of
`src/main.py` (`TranslationAppPro`: `_calculate_similarity`,
`_clean_word_loops`, `_merge_fragments`, `_is_sentence_complete`,
`on_transcription`, the buffer-flush part of `stop_translation_process`)
and of the mixing arithmetic of `src/audio_mixer.py`
(`mix_audio_arrays`, `overlay_translation`).

Modelling conventions:
* Python strings are Lean `String`s (a wrapped `List Char`); `str.strip()`,
  `str.split()`, `str.lower()`, `str.rstrip(...)` are re-implemented
  character by character below (ASCII lower-casing, the six ASCII
  whitespace characters stripped by Python's default `strip`).
* Python floats are modelled as exact rationals `ℚ` (so `0.8` is `4/5`,
  `2.5` is `5/2`); timestamps are rationals.
* NumPy `int16` sample buffers are `List ℤ`; the float32 mixing buffer is
  `List ℚ`; `astype(np.int16)` is truncation toward zero.
* The reduction `np.abs(mixed).max()` raises `ValueError` on an empty
  array, so the mixing functions return `Option (List ℤ)`, `none` being
  the raised-exception case.
* Logging, UI updates and the latency bookkeeping
  (`last_transcription_time`) are side effects outside the modelled state.
-/

/-! ## Character and string primitives -/

/-- The six characters removed by Python's default `str.strip()`. -/
def isSpaceCh (c : Char) : Bool :=
  c = ' ' || c = '\t' || c = '\n' || c = '\r' || c = Char.ofNat 11 || c = Char.ofNat 12

/-- Characters stripped from the right of a word by `rstrip(',.!?;:')`
in `_clean_word_loops` (src/main.py line 578). -/
def isPunctCh (c : Char) : Bool :=
  c = ',' || c = '.' || c = '!' || c = '?' || c = ';' || c = ':'

/-- `str.strip()` on the underlying character list. -/
def stripChars (l : List Char) : List Char :=
  ((l.dropWhile isSpaceCh).reverse.dropWhile isSpaceCh).reverse

/-- Python `str.strip()`. -/
def pyStrip (s : String) : String := ⟨stripChars s.data⟩

/-- Python `str.lower()` (ASCII). -/
def lowerStr (s : String) : String := ⟨s.data.map Char.toLower⟩

/-- Python `str.rstrip(',.!?;:')`. -/
def rstripPunct (s : String) : String := ⟨(s.data.reverse.dropWhile isPunctCh).reverse⟩

/-- `word.lower().rstrip(',.!?;:')`: the normal form under which
`_clean_word_loops` compares consecutive words (src/main.py line 578). -/
def norm_word (w : String) : String := rstripPunct (lowerStr w)

/-- Whitespace splitting, Python `str.split()`: accumulator holds the
current in-progress word reversed. -/
def splitWAux : List Char → List Char → List (List Char)
  | [], acc => if acc = [] then [] else [acc.reverse]
  | c :: cs, acc =>
    if isSpaceCh c then
      (if acc = [] then splitWAux cs [] else acc.reverse :: splitWAux cs [])
    else splitWAux cs (c :: acc)

/-- The words of a character list. -/
def wordsOf (l : List Char) : List (List Char) := splitWAux l []

/-- Python `str.split()`. -/
def pyWords (s : String) : List String := (wordsOf s.data).map (fun w => ⟨w⟩)

/-- Python `' '.join(ws)`. -/
def joinSpace : List String → String
  | [] => ""
  | [w] => w
  | w :: ws => w ++ " " ++ joinSpace ws

/-- One test of the loop condition
`text.endswith('...') or text.endswith('....')`
(src/main.py lines 555, 659, 694).  A trailing `"...."` also ends in
`"..."`, so the disjunction is kept literally but is equivalent to its
first disjunct. -/
def endsDots (l : List Char) : Bool :=
  ['.', '.', '.'].isSuffixOf l || ['.', '.', '.', '.'].isSuffixOf l

/-- The loop `while text.endswith('...') or text.endswith('....'):
text = text[:-3].strip()` — each pass drops the last three characters and
re-strips.  Fuel-indexed; every pass removes at least three characters, so
the initial character count is always sufficient fuel. -/
def ellipsisLoopF : Nat → List Char → List Char
  | 0, l => l
  | fuel + 1, l =>
    if endsDots l then ellipsisLoopF fuel (stripChars (l.take (l.length - 3))) else l

/-- `text.strip()` followed by the trailing-ellipsis-stripping loop, as
performed on the incoming fragment (src/main.py lines 658–660), inside
`_is_sentence_complete` (lines 550–556) and on the emission candidate
(lines 691–695). -/
def ellipsis_strip (s : String) : String :=
  ⟨ellipsisLoopF s.data.length (stripChars s.data)⟩

/-- `_is_sentence_complete` (src/main.py lines 548–562): strip, remove
trailing ellipsis runs, fail on empty, else test the last character. -/
def is_sentence_complete (text : String) : Bool :=
  let t := ellipsis_strip text
  match t.data.getLast? with
  | none => false
  | some c => c = '.' || c = '!' || c = '?' || c = ';'

/-! ## Word-loop cleaning (`_clean_word_loops`, src/main.py lines 564–603)

The source scans the word list with an index `i`, counts the run of
consecutive words whose normal form equals that of `words[i]`, keeps the
first two occurrences of a run of length ≥ 3, one occurrence of a run of
length 2, and skips to the word after the run.  `goCW` is that scan as a
structural recursion: `w1` is `words[i]`, `w2` the second word of the
current run if one has been seen (`words[i+1]`), `c` the run length so
far. -/

/-- What the scan appends for a finished run: first two occurrences for a
run of length ≥ 3, a single occurrence otherwise. -/
def flushRun (w1 : String) (w2 : Option String) (c : Nat) : List String :=
  if 3 ≤ c then w1 :: w2.toList else [w1]

/-- The run-counting scan of `_clean_word_loops`. -/
def goCW : List String → String → Option String → Nat → List String
  | [], w1, w2, c => flushRun w1 w2 c
  | v :: vs, w1, w2, c =>
    if norm_word v = norm_word w1 then goCW vs w1 (w2 <|> some v) (c + 1)
    else flushRun w1 w2 c ++ goCW vs v none 1

/-- The cleaned word list. -/
def cleanWords : List String → List String
  | [] => []
  | w :: ws => goCW ws w none 1

/-- `_clean_word_loops`: fewer than 3 words are returned unchanged
(original spacing preserved); otherwise the kept words are rejoined with
single spaces.  The warning log is a side effect outside the model. -/
def clean_word_loops (text : String) : String :=
  let words := pyWords text
  if words.length < 3 then text else joinSpace (cleanWords words)

/-! ## Word-set similarity (`_calculate_similarity`, src/main.py 513–534) -/

/-- Exact division of two naturals as a rational, built directly as a
reduced fraction so that it evaluates inside the kernel; the bridge lemma
`ratDiv'_eq` below proves it equal to `(a : ℚ) / (b : ℚ)`. -/
def ratDiv' (a b : ℕ) : ℚ :=
  if hb : b = 0 then 0
  else
    { num := (a / a.gcd b : ℕ)
      den := b / a.gcd b
      den_nz := Nat.pos_iff_ne_zero.mp
        (Nat.div_pos (Nat.le_of_dvd (Nat.pos_of_ne_zero hb) (Nat.gcd_dvd_right a b))
          (Nat.gcd_pos_of_pos_right a (Nat.pos_of_ne_zero hb)))
      reduced := by
        simpa [Int.natAbs_ofNat] using
          Nat.coprime_div_gcd_div_gcd
            (Nat.gcd_pos_of_pos_right a (Nat.pos_of_ne_zero hb)) }

/-- `_calculate_similarity`: lower-case and strip both strings, return 0
if either is empty, 1 if they are equal, else the Jaccard index of their
word sets.  `len(set(a) & set(b))` is the number of distinct words of `a`
occurring in `b`; `len(set(a) | set(b))` the number of distinct words of
the concatenation. -/
def calculate_similarity (s1 s2 : String) : ℚ :=
  let c1 := pyStrip (lowerStr s1)
  let c2 := pyStrip (lowerStr s2)
  if c1 = "" ∨ c2 = "" then 0
  else if c1 = c2 then 1
  else
    let w1 := (pyWords c1).dedup
    let w2 := (pyWords c2).dedup
    if w1 = [] ∨ w2 = [] then 0
    else
      let inter := (w1.filter (fun w => w ∈ w2)).length
      let union := ((w1 ++ w2).dedup).length
      if union > 0 then ratDiv' inter union else 0

/-! ## Fragment merging (`_merge_fragments`, src/main.py lines 605–648) -/

/-- `buffer_words[-i:] == fragment_words[:i]`: the last `i` words of the
buffer equal the first `i` words of the fragment. -/
def overlapAt (bw fw : List String) (i : Nat) : Prop :=
  bw.drop (bw.length - i) = fw.take i

instance (bw fw : List String) (i : Nat) : Decidable (overlapAt bw fw i) := by
  unfold overlapAt; infer_instance

/-- The first overlap scan (src/main.py lines 624–626):
`for i in range(1, max_overlap + 1): if match: overlap_length = i` —
an ascending scan keeping the last (hence largest) matching `i`. -/
def overlapAsc (bw fw : List String) : Nat :=
  (List.range' 1 (min bw.length fw.length)).foldl
    (fun acc i => if overlapAt bw fw i then i else acc) 0

/-- Both overlap scans (src/main.py lines 620–632): the second pass
`for i in range(1, max_overlap): if match: overlap_length = max(..., i); break`
takes the first matching `i` of a shorter ascending range and can never
exceed the first scan's result. -/
def overlapLen (bw fw : List String) : Nat :=
  match (List.range' 1 (min bw.length fw.length - 1)).find?
      (fun i => decide (overlapAt bw fw i)) with
  | some i => max (overlapAsc bw fw) i
  | none => overlapAsc bw fw

/-- `_merge_fragments`: empty buffer returns the loop-cleaned fragment;
near-restatements (similarity > 0.8) return the longer string; otherwise
the suffix/prefix word overlap is removed from the fragment, the pieces
concatenated, loop-cleaned again and stripped. -/
def merge_fragments (buffer new_fragment : String) : String :=
  if buffer = "" then clean_word_loops new_fragment
  else
    let nf := clean_word_loops new_fragment
    if calculate_similarity buffer nf > ratDiv' 4 5 then
      (if nf.length < buffer.length then buffer else nf)
    else
      let bw := pyWords buffer
      let fw := pyWords nf
      let ov := overlapLen bw fw
      let merged :=
        if ov > 0 then buffer ++ " " ++ joinSpace (fw.drop ov)
        else if bw ≠ [] ∧ fw ≠ [] ∧ bw.getLast? = fw.head? then
          buffer ++ " " ++ joinSpace (fw.drop 1)
        else buffer ++ " " ++ nf
      pyStrip (clean_word_loops merged)

/-! ## The accumulator state machine (`on_transcription`, lines 650–725,
and the flush in `stop_translation_process`, lines 468–478) -/

/-- The accumulator state: `sentence_buffer`, `buffer_start_time`,
`last_fragment_time`, `recent_transcriptions` of `TranslationAppPro`. -/
structure AccState where
  buffer : String
  startedAt : Option ℚ
  lastFragmentAt : Option ℚ
  recent : List String
deriving DecidableEq, Repr

/-- The initial accumulator fields (src/main.py lines 192–199). -/
def accInit : AccState := ⟨"", none, none, []⟩

/-- `recent_transcriptions.append(x)` then `pop(0)` when the length
exceeds `max_recent_transcriptions = 10` (src/main.py lines 706–708). -/
def pushRecent (r : List String) (x : String) : List String :=
  let r' := r ++ [x]
  if r'.length > 10 then r'.drop 1 else r'

/-- `timeout_reached` (src/main.py lines 684–685):
`self.buffer_start_time and (current_time - self.buffer_start_time) > 2.5`.
A float `0.0` is falsy in Python, hence the `t = 0` case. -/
def timeoutReached (startedAt : Option ℚ) (now : ℚ) : Bool :=
  match startedAt with
  | none => false
  | some t => if t = 0 then false else decide (ratDiv' 5 2 < now - t)

/-- The emission block of `on_transcription` (src/main.py lines 690–725):
strip trailing ellipses from the buffer, silently discard sentences
shorter than 20 characters, otherwise record the lower-cased sentence in
the recent history and emit it; the buffer and both timestamps are reset
in every case. -/
def emitStep (s : AccState) (buf : String) : AccState × Option String :=
  let cs := ellipsis_strip buf
  if cs.length < 20 then (⟨"", none, none, s.recent⟩, none)
  else (⟨"", none, none, pushRecent s.recent (lowerStr cs)⟩, some cs)

/-- `on_transcription(text)` at time `now`: the returned `Option String`
is the sentence handed to `process_translation`, if any. -/
def on_transcription (s : AccState) (text : String) (now : ℚ) : AccState × Option String :=
  if pyStrip text = "" then (s, none)
  else
    let tc := ellipsis_strip text
    if tc = "" then (s, none)
    else if lowerStr tc = pyStrip (lowerStr s.buffer) then (s, none)
    else
      let started := if s.buffer = "" then some now else s.startedAt
      let buf := merge_fragments s.buffer tc
      if is_sentence_complete buf
          || (timeoutReached started now && decide (50 ≤ buf.length)) then
        emitStep s buf
      else (⟨buf, started, some now, s.recent⟩, none)

/-- The sentence-buffer part of `stop_translation_process`
(src/main.py lines 468–478): if the stripped buffer is non-empty and the
buffer has at least `min_sentence_length = 50` characters, the raw buffer
is handed to `process_translation`; the buffer and timestamps are cleared
unconditionally, and `recent_transcriptions` is not touched. -/
def stop_translation_process (s : AccState) : AccState × Option String :=
  if pyStrip s.buffer ≠ "" ∧ 50 ≤ s.buffer.length then
    (⟨"", none, none, s.recent⟩, some s.buffer)
  else (⟨"", none, none, s.recent⟩, none)

/-! ## Audio mixing (`src/audio_mixer.py`) -/

/-- `astype(np.int16)` on an in-range float: truncation toward zero. -/
def truncQ (q : ℚ) : ℤ := if 0 ≤ q then ⌊q⌋ else ⌈q⌉

/-- `np.pad(l, (0, n - len(l)), mode='constant')`. -/
def padZero (l : List ℚ) (n : Nat) : List ℚ := l ++ List.replicate (n - l.length) 0

/-- `np.abs(mixed).max()` — `none` on an empty buffer, where NumPy raises
`ValueError: zero-size array to reduction operation`. -/
def maxAbsQ : List ℚ → Option ℚ
  | [] => none
  | x :: xs => some (xs.foldl (fun a b => max a |b|) |x|)

/-- The shared clip-safety block (src/audio_mixer.py lines 108–111 and
166–169): scale the whole buffer by `32767 / max_val` when the peak
exceeds the int16 maximum. -/
def normalizePeak (mixed : List ℚ) (m : ℚ) : List ℚ :=
  if 32767 < m then mixed.map (fun x => x * (32767 / m)) else mixed

/-- The final block shared by both mixing entry points: take the peak,
normalize when it exceeds 32767, convert back to int16.  `none` is the
`ValueError` NumPy raises when `mixed` is a zero-size array. -/
def clipConvert (mixed : List ℚ) : Option (List ℤ) :=
  match maxAbsQ mixed with
  | none => none
  | some m => some ((normalizePeak mixed m).map truncQ)

/-- The float mixing buffer of `mix_audio_arrays` (src/audio_mixer.py
lines 80–106): scale each input by its volume, right-pad the shorter to
the longer's length, sum element-wise. -/
def mixFloat (ov tv : ℚ) (original translation : List ℤ) : List ℚ :=
  let og := original.map (fun (x : ℤ) => (x : ℚ) * ov)
  let tr := translation.map (fun (x : ℤ) => (x : ℚ) * tv)
  let n := max og.length tr.length
  List.zipWith (· + ·) (padZero og n) (padZero tr n)

/-- `mix_audio_arrays` (src/audio_mixer.py lines 68–124) with volumes
`ov`, `tv`: scale, right-pad the shorter input with zeros, sum, peak
normalize, convert to int16. -/
def mix_audio_arrays (ov tv : ℚ) (original translation : List ℤ) : Option (List ℤ) :=
  clipConvert (mixFloat ov tv original translation)

/-- The float overlay buffer of `overlay_translation` (src/audio_mixer.py
lines 142–164): the translation is added at sample offset
`delay_ms * sample_rate / 1000` into a zero buffer of length
`max(len(original), delay + len(translation))`, the original at offset 0. -/
def overlayFloat (ov tv : ℚ) (sampleRate : Nat) (original translation : List ℤ)
    (delayMs : Nat) : List ℚ :=
  let d := delayMs * sampleRate / 1000
  let og := original.map (fun (x : ℤ) => (x : ℚ) * ov)
  let tr := translation.map (fun (x : ℤ) => (x : ℚ) * tv)
  let total := max og.length (d + tr.length)
  (List.range total).map
    (fun i => og.getD i 0 + (if i < d then 0 else tr.getD (i - d) 0))

/-- `overlay_translation` (src/audio_mixer.py lines 126–171): overlay
with delay, then the same peak normalization and int16 conversion. -/
def overlay_translation (ov tv : ℚ) (sampleRate : Nat) (original translation : List ℤ)
    (delayMs : Nat) : Option (List ℤ) :=
  clipConvert (overlayFloat ov tv sampleRate original translation delayMs)

/-! ## Derived predicates used in claim statements -/

/-- The three-way emptiness invariant of the sentence buffer (spec §3):
`text` is empty iff `startedAt` is none iff `lastFragmentAt` is none. -/
def AccInv (s : AccState) : Prop :=
  (s.buffer = "" ↔ s.startedAt = none) ∧ (s.buffer = "" ↔ s.lastFragmentAt = none)

/-- The overlap length as the spec words it: the largest `k` with
`1 ≤ k ≤ min(len bw, len fw)` whose buffer suffix equals the fragment
prefix, or `0` when none exists. -/
def specOverlap (bw fw : List String) : Nat :=
  Nat.findGreatest (fun k => overlapAt bw fw k) (min bw.length fw.length)

/-- The merge result as the spec words it (for comparison with
`merge_fragments`): loop-clean the fragment, drop its first `specOverlap`
words (`k = 0` appending the whole fragment), concatenate with a single
space, loop-clean and strip. -/
def specMergeResult (buffer fragment : String) : String :=
  let nf := clean_word_loops fragment
  let k := specOverlap (pyWords buffer) (pyWords nf)
  pyStrip (clean_word_loops
    (buffer ++ " " ++ (if k = 0 then nf else joinSpace ((pyWords nf).drop k))))

/-- Two consecutive words with the same normal form. -/
def hasAdjB : List String → Bool
  | w :: v :: rest => decide (norm_word w = norm_word v) || hasAdjB (v :: rest)
  | _ => false

/-- Three consecutive words with the same normal form. -/
def hasTripleB : List String → Bool
  | w :: v :: u :: rest =>
    (decide (norm_word w = norm_word v) && decide (norm_word v = norm_word u))
      || hasTripleB (v :: u :: rest)
  | _ => false

/-! ## Mixer lemmas -/

lemma foldl_max_init_le (ys : List ℚ) (a : ℚ) :
    a ≤ ys.foldl (fun u b => max u |b|) a := by
  induction ys generalizing a with
  | nil => exact le_refl a
  | cons y ys ih => exact le_trans (le_max_left a |y|) (ih (max a |y|))

lemma foldl_max_mem_le {x : ℚ} (ys : List ℚ) (a : ℚ) (hx : x ∈ ys) :
    |x| ≤ ys.foldl (fun u b => max u |b|) a := by
  induction ys generalizing a with
  | nil => cases hx
  | cons y ys ih =>
    rcases List.mem_cons.mp hx with h | h
    · subst h; exact le_trans (le_max_right a |x|) (foldl_max_init_le ys _)
    · exact ih _ h

lemma maxAbsQ_le {l : List ℚ} {m : ℚ} (hm : maxAbsQ l = some m) {x : ℚ}
    (hx : x ∈ l) : |x| ≤ m := by
  cases l with
  | nil => cases hx
  | cons y ys =>
    simp only [maxAbsQ, Option.some.injEq] at hm
    subst hm
    rcases List.mem_cons.mp hx with h | h
    · subst h; exact foldl_max_init_le ys _
    · exact foldl_max_mem_le ys _ h

lemma normalizePeak_bound {l : List ℚ} {m : ℚ} (hm : maxAbsQ l = some m) {x : ℚ}
    (hx : x ∈ normalizePeak l m) : |x| ≤ 32767 := by
  unfold normalizePeak at hx
  split at hx
  case isTrue h =>
    rcases List.mem_map.mp hx with ⟨v, hv, rfl⟩
    have hvm := maxAbsQ_le hm hv
    have hm0 : (0 : ℚ) < m := lt_trans (by norm_num) h
    have h32 : (0 : ℚ) ≤ 32767 / m := by positivity
    have habs : |v * (32767 / m)| = |v| * (32767 / m) := by
      rw [abs_mul, abs_of_nonneg h32]
    rw [habs]
    calc |v| * (32767 / m) ≤ m * (32767 / m) :=
          mul_le_mul_of_nonneg_right hvm (by positivity)
      _ = 32767 := by field_simp
  case isFalse h => exact le_trans (maxAbsQ_le hm hx) (not_lt.mp h)

lemma truncQ_abs_le {q : ℚ} (h : |q| ≤ 32767) : |truncQ q| ≤ (32767 : ℤ) := by
  rw [abs_le] at h ⊢
  unfold truncQ
  split
  case isTrue h0 =>
    have h1 : (0 : ℤ) ≤ ⌊q⌋ := Int.floor_nonneg.mpr h0
    have h2 : ⌊q⌋ ≤ ⌊(32767 : ℚ)⌋ := Int.floor_le_floor h.2
    have h3 : ⌊(32767 : ℚ)⌋ = 32767 := by
      rw [show (32767 : ℚ) = ((32767 : ℤ) : ℚ) by norm_num, Int.floor_intCast]
    omega
  case isFalse h0 =>
    have h1 : ⌈q⌉ ≤ 0 := Int.ceil_le.mpr (by push_cast; linarith [not_le.mp h0])
    have h2 : ⌈(-32767 : ℚ)⌉ ≤ ⌈q⌉ := Int.ceil_le_ceil h.1
    have h3 : ⌈(-32767 : ℚ)⌉ = -32767 := by
      rw [show (-32767 : ℚ) = ((-32767 : ℤ) : ℚ) by norm_num, Int.ceil_intCast]
    omega

lemma clipConvert_bound {l : List ℚ} {r : List ℤ} (h : clipConvert l = some r) :
    ∀ x ∈ r, |x| ≤ (32767 : ℤ) := by
  intro x hx
  unfold clipConvert at h
  cases hm : maxAbsQ l with
  | none => rw [hm] at h; cases h
  | some m =>
    rw [hm] at h
    injection h with h
    subst h
    rcases List.mem_map.mp hx with ⟨q, hq, rfl⟩
    exact truncQ_abs_le (normalizePeak_bound hm hq)

lemma clipConvert_some {l : List ℚ} (h : l ≠ []) :
    ∃ r, clipConvert l = some r ∧ r.length = l.length := by
  obtain ⟨x, xs, rfl⟩ := List.exists_cons_of_ne_nil h
  refine ⟨_, rfl, ?_⟩
  rw [List.length_map]
  unfold normalizePeak
  split
  · rw [List.length_map]
  · rfl

lemma length_padZero (l : List ℚ) (n : Nat) : (padZero l n).length = max l.length n := by
  unfold padZero
  rw [List.length_append, List.length_replicate]
  omega

lemma mixFloat_length (ov tv : ℚ) (o t : List ℤ) :
    (mixFloat ov tv o t).length = max o.length t.length := by
  simp only [mixFloat]
  rw [List.length_zipWith, length_padZero, length_padZero, List.length_map,
    List.length_map]
  omega

/-! ## C8 and C9: mixer claims -/

/-- C8: for int16 inputs and volumes in `[0,1]`, every sample produced by
`mix_audio_arrays` and by `overlay_translation` has magnitude at most
32767; when the float peak exceeds 32767 the whole buffer is scaled by
`32767 / peak` before int16 conversion (the scaling is the `normalizePeak`
step of `clipConvert`, and the bound holds for every sample of the
output). -/
theorem c8_mixer_clip_safety (ov tv : ℚ) (sr : Nat) (original translation : List ℤ)
    (_hov0 : 0 ≤ ov) (_hov1 : ov ≤ 1) (_htv0 : 0 ≤ tv) (_htv1 : tv ≤ 1)
    (_ho : ∀ x ∈ original, -32768 ≤ x ∧ x ≤ 32767)
    (_ht : ∀ x ∈ translation, -32768 ≤ x ∧ x ≤ 32767) :
    (∀ r, mix_audio_arrays ov tv original translation = some r →
      ∀ x ∈ r, |x| ≤ (32767 : ℤ))
    ∧ (∀ d r, overlay_translation ov tv sr original translation d = some r →
      ∀ x ∈ r, |x| ≤ (32767 : ℤ)) :=
  ⟨fun _ h => clipConvert_bound h, fun _ _ h => clipConvert_bound h⟩

theorem c8_mixer_clip_safety_witness :
    mix_audio_arrays 1 1 [0] [] = some [0] ∧ |(0 : ℤ)| ≤ (32767 : ℤ) := by
  have hm : mix_audio_arrays 1 1 [0] [] = some [0] := by
    norm_num [mix_audio_arrays, clipConvert, mixFloat, padZero, maxAbsQ,
      normalizePeak, truncQ]
  refine ⟨hm, ?_⟩
  exact (c8_mixer_clip_safety 1 1 16000 [0] [] (by norm_num) (by norm_num)
    (by norm_num) (by norm_num) (by decide) (by decide)).1 [0] hm 0 (by simp)

/-- C9 counterexample: on two empty inputs `mix_audio_arrays` does not
return a result — `np.abs(mixed).max()` is a reduction over a zero-size
array and raises `ValueError`, modelled as `none`.  The claim that `mix`
is total "including empty sequences" is therefore false. -/
theorem c9_mix_empty_input_error :
    mix_audio_arrays (3 / 10) 1 [] [] = none := rfl

/-- C9 amended: for every pair of inputs that are not both empty,
`mix_audio_arrays` returns a buffer of length
`max (len original) (len translation)` (the shorter input zero-padded);
only the two-empty-inputs case raises. -/
theorem c9_mix_total_amended (ov tv : ℚ) (o t : List ℤ) (h : ¬(o = [] ∧ t = [])) :
    ∃ r, mix_audio_arrays ov tv o t = some r ∧ r.length = max o.length t.length := by
  have hlen := mixFloat_length ov tv o t
  have hne : mixFloat ov tv o t ≠ [] := by
    intro hc
    rw [hc] at hlen
    simp only [List.length_nil] at hlen
    have h1 : o.length = 0 := by omega
    have h2 : t.length = 0 := by omega
    rcases not_and_or.mp h with h' | h'
    · exact h' (List.eq_nil_of_length_eq_zero h1)
    · exact h' (List.eq_nil_of_length_eq_zero h2)
  obtain ⟨r, hr, hrl⟩ := clipConvert_some hne
  exact ⟨r, hr, by rw [hrl, hlen]⟩

theorem c9_mix_total_amended_witness :
    ∃ r, mix_audio_arrays 1 1 [1] [] = some r ∧
      r.length = max [(1 : ℤ)].length ([] : List ℤ).length :=
  c9_mix_total_amended 1 1 [1] [] (by decide)

/-! ## Bridge lemma for `ratDiv'` -/

lemma ratDiv'_eq (a b : ℕ) : ratDiv' a b = (a : ℚ) / (b : ℚ) := by
  unfold ratDiv'
  split
  case isTrue hb => subst hb; simp
  case isFalse hb =>
    have hg : 0 < a.gcd b := Nat.gcd_pos_of_pos_right a (Nat.pos_of_ne_zero hb)
    have hgQ : ((a.gcd b : ℕ) : ℚ) ≠ 0 := Nat.cast_ne_zero.mpr (Nat.pos_iff_ne_zero.mp hg)
    have hbQ : ((b : ℕ) : ℚ) ≠ 0 := Nat.cast_ne_zero.mpr hb
    rw [Rat.mk'_eq_divInt, Rat.divInt_eq_div, Int.cast_natCast, Int.cast_natCast]
    rw [Nat.cast_div (Nat.gcd_dvd_left a b) hgQ, Nat.cast_div (Nat.gcd_dvd_right a b) hgQ]
    field_simp

/-! ## `dropWhile` and `stripChars` lemmas -/

lemma dropWhile_idem {α : Type*} (p : α → Bool) (l : List α) :
    List.dropWhile p (List.dropWhile p l) = List.dropWhile p l := by
  induction l with
  | nil => rfl
  | cons c cs ih =>
    by_cases h : p c
    · simp only [List.dropWhile_cons, h, if_true]
      exact ih
    · simp [List.dropWhile_cons, h]

lemma head?_dropWhile_false {α : Type*} {p : α → Bool} {l : List α} {c : α}
    (h : (List.dropWhile p l).head? = some c) : p c = false := by
  have := List.head?_dropWhile_not p l
  rw [h] at this
  exact this

lemma dropWhile_eq_self_of_head {α : Type*} {p : α → Bool} {l : List α}
    (h : ∀ c, l.head? = some c → p c = false) : List.dropWhile p l = l := by
  cases l with
  | nil => rfl
  | cons c cs => simp [List.dropWhile_cons, h c rfl]

lemma mem_dropWhile_of_not {α : Type*} {p : α → Bool} {l : List α} {c : α}
    (hc : c ∈ l) (hp : p c = false) : c ∈ List.dropWhile p l := by
  induction l with
  | nil => cases hc
  | cons d ds ih =>
    rcases List.mem_cons.mp hc with h | h
    · subst h
      rw [List.dropWhile_cons, hp]
      · exact List.mem_cons_self c ds
    · by_cases hd : p d
      · rw [List.dropWhile_cons, if_pos hd]
        exact ih h
      · rw [List.dropWhile_cons, if_neg hd]
        exact List.mem_cons_of_mem d h

lemma stripChars_prefix_dropWhile (l : List Char) :
    stripChars l <+: List.dropWhile isSpaceCh l := by
  unfold stripChars
  have h1 : List.dropWhile isSpaceCh (List.dropWhile isSpaceCh l).reverse <:+
      (List.dropWhile isSpaceCh l).reverse := List.dropWhile_suffix _
  have := List.reverse_prefix.mpr h1
  rwa [List.reverse_reverse] at this

lemma dropWhile_stripChars (l : List Char) :
    List.dropWhile isSpaceCh (stripChars l) = stripChars l := by
  apply dropWhile_eq_self_of_head
  intro c hc
  rcases stripChars_prefix_dropWhile l with ⟨t, ht⟩
  apply head?_dropWhile_false (p := isSpaceCh) (l := l)
  rw [← ht]
  cases hS : stripChars l with
  | nil => rw [hS] at hc; cases hc
  | cons b bs =>
    rw [hS] at hc
    simpa using hc

lemma strip_idem (l : List Char) : stripChars (stripChars l) = stripChars l := by
  have h1 : List.dropWhile isSpaceCh (stripChars l) = stripChars l := dropWhile_stripChars l
  show ((List.dropWhile isSpaceCh (stripChars l)).reverse.dropWhile isSpaceCh).reverse
    = stripChars l
  rw [h1]
  show (((((l.dropWhile isSpaceCh).reverse.dropWhile isSpaceCh).reverse).reverse).dropWhile
    isSpaceCh).reverse = stripChars l
  rw [List.reverse_reverse, dropWhile_idem]
  rfl

lemma mem_stripChars {l : List Char} {c : Char} (hc : c ∈ l)
    (hp : isSpaceCh c = false) : c ∈ stripChars l := by
  unfold stripChars
  rw [List.mem_reverse]
  apply mem_dropWhile_of_not _ hp
  rw [List.mem_reverse]
  exact mem_dropWhile_of_not hc hp

lemma stripChars_ne_nil {l : List Char} {c : Char} (hc : c ∈ l)
    (hp : isSpaceCh c = false) : stripChars l ≠ [] :=
  List.ne_nil_of_mem (mem_stripChars hc hp)

lemma stripChars_all_space {l : List Char} (h : stripChars l = []) :
    ∀ c ∈ l, isSpaceCh c = true := by
  intro c hc
  by_contra hp
  have hp' : isSpaceCh c = false := by
    cases hEq : isSpaceCh c
    · rfl
    · exact absurd hEq hp
  exact stripChars_ne_nil hc hp' h

lemma head_not_space_of_stripped {l : List Char} (h : List.dropWhile isSpaceCh l = l)
    {c : Char} (hc : l.head? = some c) : isSpaceCh c = false := by
  cases l with
  | nil => cases hc
  | cons d ds =>
    injection hc with hc
    rw [← hc]
    by_contra hp
    rw [Bool.not_eq_false] at hp
    rw [List.dropWhile_cons, if_pos hp] at h
    have hlen : (List.dropWhile isSpaceCh ds).length ≤ ds.length :=
      (List.dropWhile_suffix _).length_le
    rw [h] at hlen
    simp at hlen

lemma ellipsisLoopF_stripped {l : List Char} (h : stripChars l = l) (n : Nat) :
    stripChars (ellipsisLoopF n l) = ellipsisLoopF n l := by
  induction n generalizing l with
  | zero => exact h
  | succ n ih =>
    unfold ellipsisLoopF
    split
    · exact ih (strip_idem _)
    · exact h

lemma ellipsis_strip_stripped (s : String) :
    stripChars (ellipsis_strip s).data = (ellipsis_strip s).data :=
  ellipsisLoopF_stripped (strip_idem s.data) s.data.length

/-! ## Word-splitting and join lemmas -/

lemma mk_data (s : String) : (⟨s.data⟩ : String) = s := rfl

lemma str_data_ne {s : String} (h : s ≠ "") : s.data ≠ [] :=
  fun hd => h (String.ext hd)

lemma splitWAux_ne_nil {l : List Char} : ∀ {acc : List Char}, acc ≠ [] →
    splitWAux l acc ≠ [] := by
  induction l with
  | nil => intro acc ha; simp [splitWAux, ha]
  | cons c cs ih =>
    intro acc ha
    by_cases hc : isSpaceCh c
    · simp only [splitWAux, if_pos hc, if_neg ha]
      exact List.cons_ne_nil _ _
    · simp only [splitWAux, if_neg hc]
      exact ih (List.cons_ne_nil c acc)

lemma splitWAux_eq_nil_iff {l : List Char} : ∀ {acc : List Char},
    splitWAux l acc = [] ↔ acc = [] ∧ ∀ c ∈ l, isSpaceCh c = true := by
  induction l with
  | nil => intro acc; by_cases ha : acc = [] <;> simp [splitWAux, ha]
  | cons c cs ih =>
    intro acc
    by_cases hc : isSpaceCh c
    · by_cases ha : acc = []
      · subst ha
        rw [show splitWAux (c :: cs) [] = splitWAux cs [] by simp [splitWAux, hc]]
        rw [ih]
        simp [hc]
      · simp only [splitWAux, if_pos hc, if_neg ha]
        simp [ha]
    · simp only [splitWAux, if_neg hc]
      rw [ih]
      have hc' : isSpaceCh c = false := by
        cases hEq : isSpaceCh c
        · rfl
        · exact absurd hEq hc
      simp [hc']

lemma splitWAux_words {l : List Char} : ∀ {acc : List Char},
    (∀ c ∈ acc, isSpaceCh c = false) →
    ∀ w ∈ splitWAux l acc, w ≠ [] ∧ ∀ c ∈ w, isSpaceCh c = false := by
  induction l with
  | nil =>
    intro acc ha w hw
    by_cases hacc : acc = []
    · simp [splitWAux, hacc] at hw
    · simp only [splitWAux, if_neg hacc, List.mem_singleton] at hw
      subst hw
      refine ⟨by simpa using hacc, ?_⟩
      intro c hcw
      exact ha c (List.mem_reverse.mp hcw)
  | cons c cs ih =>
    intro acc ha w hw
    by_cases hc : isSpaceCh c
    · by_cases hacc : acc = []
      · rw [show splitWAux (c :: cs) acc = splitWAux cs [] by
          simp [splitWAux, if_pos hc, hacc]] at hw
        exact ih (fun d hd => absurd hd (List.not_mem_nil d)) w hw
      · rw [show splitWAux (c :: cs) acc = acc.reverse :: splitWAux cs [] by
          simp [splitWAux, if_pos hc, hacc]] at hw
        rcases List.mem_cons.mp hw with h | h
        · subst h
          refine ⟨by simpa using hacc, ?_⟩
          intro d hd
          exact ha d (List.mem_reverse.mp hd)
        · exact ih (fun d hd => absurd hd (List.not_mem_nil d)) w h
    · rw [show splitWAux (c :: cs) acc = splitWAux cs (c :: acc) by
        simp [splitWAux, if_neg hc]] at hw
      have hc' : isSpaceCh c = false := by
        cases hEq : isSpaceCh c
        · rfl
        · exact absurd hEq hc
      refine ih ?_ w hw
      intro d hd
      rcases List.mem_cons.mp hd with h | h
      · subst h; exact hc'
      · exact ha d h

lemma splitWAux_append_word {w : List Char} (hw : ∀ c ∈ w, isSpaceCh c = false) :
    ∀ (l acc : List Char), splitWAux (w ++ l) acc = splitWAux l (w.reverse ++ acc) := by
  induction w with
  | nil => intro l acc; simp
  | cons c cs ih =>
    intro l acc
    have hc : isSpaceCh c = false := hw c (List.mem_cons_self _ _)
    rw [List.cons_append, show splitWAux (c :: (cs ++ l)) acc = splitWAux (cs ++ l) (c :: acc) by
      simp [splitWAux, hc]]
    rw [ih (fun d hd => hw d (List.mem_cons_of_mem c hd)) l (c :: acc)]
    congr 1
    simp

lemma pyWords_eq_nil_iff {s : String} :
    pyWords s = [] ↔ ∀ c ∈ s.data, isSpaceCh c = true := by
  unfold pyWords wordsOf
  rw [List.map_eq_nil_iff, splitWAux_eq_nil_iff]
  simp

lemma pyWords_words {s : String} :
    ∀ w ∈ pyWords s, w ≠ "" ∧ ∀ c ∈ w.data, isSpaceCh c = false := by
  intro w hw
  unfold pyWords wordsOf at hw
  rcases List.mem_map.mp hw with ⟨d, hd, rfl⟩
  obtain ⟨h1, h2⟩ := splitWAux_words (fun c hc => absurd hc (List.not_mem_nil c)) d hd
  exact ⟨fun he => h1 (congrArg String.data he), h2⟩

lemma joinSpace_data_cons₂ (w v : String) (vs : List String) :
    (joinSpace (w :: v :: vs)).data = w.data ++ ' ' :: (joinSpace (v :: vs)).data := by
  show (w ++ " " ++ joinSpace (v :: vs)).data = _
  rw [String.data_append, String.data_append]
  simp

lemma mem_joinSpace_data {ws : List String} {w : String} (hw : w ∈ ws) {c : Char}
    (hc : c ∈ w.data) : c ∈ (joinSpace ws).data := by
  induction ws with
  | nil => cases hw
  | cons x vs ih =>
    cases vs with
    | nil =>
      rw [List.mem_singleton] at hw
      subst hw
      exact hc
    | cons v vs' =>
      rw [joinSpace_data_cons₂]
      rcases List.mem_cons.mp hw with h | h
      · subst h
        exact List.mem_append.mpr (Or.inl hc)
      · exact List.mem_append.mpr (Or.inr (List.mem_cons_of_mem _ (ih h)))

lemma joinSpace_ne_empty {ws : List String} (h0 : ws ≠ []) (h : ∀ w ∈ ws, w ≠ "") :
    joinSpace ws ≠ "" := by
  cases ws with
  | nil => exact absurd rfl h0
  | cons w vs =>
    cases vs with
    | nil => exact h w (List.mem_cons_self _ _)
    | cons v vs' =>
      intro he
      have hd : (joinSpace (w :: v :: vs')).data = [] := congrArg String.data he
      rw [joinSpace_data_cons₂] at hd
      simp at hd

lemma pyWords_joinSpace {ws : List String}
    (h : ∀ w ∈ ws, w ≠ "" ∧ ∀ c ∈ w.data, isSpaceCh c = false) :
    pyWords (joinSpace ws) = ws := by
  induction ws with
  | nil => rfl
  | cons w vs ih =>
    obtain ⟨hne, hch⟩ := h w (List.mem_cons_self _ _)
    cases vs with
    | nil =>
      show (wordsOf (joinSpace [w]).data).map (fun d => ⟨d⟩) = [w]
      unfold wordsOf
      have hjw : (joinSpace [w]).data = w.data ++ [] := (List.append_nil _).symm
      rw [hjw, splitWAux_append_word hch [] []]
      rw [List.append_nil]
      have hacc : w.data.reverse ≠ [] := by simpa using str_data_ne hne
      simp [splitWAux, hacc]
    | cons v vs' =>
      have hacc : w.data.reverse ≠ [] := by simpa using str_data_ne hne
      have hsp : isSpaceCh ' ' = true := rfl
      have hsplit : wordsOf (joinSpace (w :: v :: vs')).data
          = w.data :: wordsOf (joinSpace (v :: vs')).data := by
        unfold wordsOf
        rw [joinSpace_data_cons₂,
          splitWAux_append_word hch (' ' :: (joinSpace (v :: vs')).data) []]
        rw [List.append_nil]
        rw [show splitWAux (' ' :: (joinSpace (v :: vs')).data) w.data.reverse
            = w.data.reverse.reverse :: splitWAux (joinSpace (v :: vs')).data [] by
          simp [splitWAux, hacc, hsp]]
        rw [List.reverse_reverse]
      show (wordsOf (joinSpace (w :: v :: vs')).data).map (fun d => (⟨d⟩ : String))
        = w :: v :: vs'
      rw [hsplit, List.map_cons]
      exact congrArg (List.cons w) (ih (fun u hu => h u (List.mem_cons_of_mem w hu)))

/-! ## `cleanWords` structural lemmas -/

lemma flushRun_cons (w1 : String) (w2 : Option String) (c : Nat) :
    ∃ t, flushRun w1 w2 c = w1 :: t := by
  unfold flushRun
  split
  · exact ⟨w2.toList, rfl⟩
  · exact ⟨[], rfl⟩

lemma flushRun_mem {w1 : String} {w2 : Option String} {c : Nat} {x : String}
    (hx : x ∈ flushRun w1 w2 c) : x = w1 ∨ w2 = some x := by
  unfold flushRun at hx
  split at hx
  · rcases List.mem_cons.mp hx with h | h
    · exact Or.inl h
    · right
      cases w2 with
      | none => simp at h
      | some y =>
        simp only [Option.toList_some, List.mem_singleton] at h
        rw [h]
  · rw [List.mem_singleton] at hx
    exact Or.inl hx

lemma goCW_head (vs : List String) (w1 : String) (w2 : Option String) (c : Nat) :
    (goCW vs w1 w2 c).head? = some w1 := by
  induction vs generalizing w2 c with
  | nil =>
    show (flushRun w1 w2 c).head? = some w1
    obtain ⟨t, ht⟩ := flushRun_cons w1 w2 c
    rw [ht]
    rfl
  | cons v vs ih =>
    unfold goCW
    split
    · exact ih _ _
    · obtain ⟨t, ht⟩ := flushRun_cons w1 w2 c
      rw [ht]
      rfl

lemma goCW_mem {vs : List String} : ∀ {w1 : String} {w2 : Option String} {c : Nat}
    {x : String}, x ∈ goCW vs w1 w2 c → x = w1 ∨ w2 = some x ∨ x ∈ vs := by
  induction vs with
  | nil =>
    intro w1 w2 c x hx
    rcases flushRun_mem hx with h | h
    · exact Or.inl h
    · exact Or.inr (Or.inl h)
  | cons v vs ih =>
    intro w1 w2 c x hx
    unfold goCW at hx
    split at hx
    · rcases ih hx with h | h | h
      · exact Or.inl h
      · cases w2 with
        | none =>
          rw [show ((none : Option String) <|> some v) = some v from rfl] at h
          injection h with h
          exact Or.inr (Or.inr (h ▸ List.mem_cons_self v vs))
        | some y =>
          rw [show ((some y : Option String) <|> some v) = some y from rfl] at h
          exact Or.inr (Or.inl h)
      · exact Or.inr (Or.inr (List.mem_cons_of_mem v h))
    · rcases List.mem_append.mp hx with h | h
      · rcases flushRun_mem h with h' | h'
        · exact Or.inl h'
        · exact Or.inr (Or.inl h')
      · rcases ih h with h' | h' | h'
        · exact Or.inr (Or.inr (h' ▸ List.mem_cons_self v vs))
        · cases h'
        · exact Or.inr (Or.inr (List.mem_cons_of_mem v h'))

lemma cleanWords_mem {l : List String} {x : String} (hx : x ∈ cleanWords l) : x ∈ l := by
  cases l with
  | nil => cases hx
  | cons w ws =>
    rcases goCW_mem hx with h | h | h
    · exact h ▸ List.mem_cons_self w ws
    · cases h
    · exact List.mem_cons_of_mem w h

lemma cleanWords_head (w : String) (ws : List String) :
    (cleanWords (w :: ws)).head? = some w := goCW_head ws w none 1

lemma cleanWords_ne_nil {l : List String} (h : l ≠ []) : cleanWords l ≠ [] := by
  cases l with
  | nil => exact absurd rfl h
  | cons w ws =>
    intro hc
    have hh := cleanWords_head w ws
    rw [hc] at hh
    cases hh

lemma goCW_run (w1 : String) (ws : List String) : ∀ (w2 : Option String) (c : Nat),
    goCW ws w1 w2 c
      = flushRun w1
          (w2 <|> (ws.takeWhile (fun v => decide (norm_word v = norm_word w1))).head?)
          (c + (ws.takeWhile (fun v => decide (norm_word v = norm_word w1))).length)
        ++ (match ws.dropWhile (fun v => decide (norm_word v = norm_word w1)) with
            | [] => []
            | v :: vs => goCW vs v none 1) := by
  induction ws with
  | nil =>
    intro w2 c
    show flushRun w1 w2 c = flushRun w1 (w2 <|> none) (c + 0) ++ []
    rw [List.append_nil]
    cases w2 <;> rfl
  | cons v vs ih =>
    intro w2 c
    by_cases hv : norm_word v = norm_word w1
    · rw [show goCW (v :: vs) w1 w2 c = goCW vs w1 (w2 <|> some v) (c + 1) by
        simp [goCW, hv]]
      rw [ih (w2 <|> some v) (c + 1)]
      rw [show (v :: vs).takeWhile (fun u => decide (norm_word u = norm_word w1))
          = v :: vs.takeWhile (fun u => decide (norm_word u = norm_word w1)) by
        simp [List.takeWhile_cons, hv]]
      rw [show (v :: vs).dropWhile (fun u => decide (norm_word u = norm_word w1))
          = vs.dropWhile (fun u => decide (norm_word u = norm_word w1)) by
        simp [List.dropWhile_cons, hv]]
      congr 1
      congr 1
      · cases w2 <;> rfl
      · simp only [List.length_cons]
        omega
    · rw [show goCW (v :: vs) w1 w2 c = flushRun w1 w2 c ++ goCW vs v none 1 by
        simp [goCW, hv]]
      rw [show (v :: vs).takeWhile (fun u => decide (norm_word u = norm_word w1))
          = [] by simp [List.takeWhile_cons, hv]]
      rw [show (v :: vs).dropWhile (fun u => decide (norm_word u = norm_word w1))
          = v :: vs by simp [List.dropWhile_cons, hv]]
      show flushRun w1 w2 c ++ goCW vs v none 1
        = flushRun w1 (w2 <|> none) (c + 0) ++ goCW vs v none 1
      congr 2
      · cases w2 <;> rfl

lemma cleanWords_run (w : String) (ws : List String) :
    cleanWords (w :: ws)
      = flushRun w (ws.takeWhile (fun v => decide (norm_word v = norm_word w))).head?
          (1 + (ws.takeWhile (fun v => decide (norm_word v = norm_word w))).length)
        ++ cleanWords (ws.dropWhile (fun v => decide (norm_word v = norm_word w))) := by
  show goCW ws w none 1 = _
  rw [goCW_run]
  rw [show ((none : Option String)
        <|> (List.takeWhile (fun v => decide (norm_word v = norm_word w)) ws).head?)
      = (List.takeWhile (fun v => decide (norm_word v = norm_word w)) ws).head? by
    cases (List.takeWhile (fun v => decide (norm_word v = norm_word w)) ws).head? <;> rfl]
  cases hdw : List.dropWhile (fun v => decide (norm_word v = norm_word w)) ws <;> rfl

/-! ## Run-structure of the cleaned word list -/

lemma hasTripleB_cons_of_ne {a : String} {t : List String}
    (h : ∀ b, t.head? = some b → norm_word a ≠ norm_word b) :
    hasTripleB (a :: t) = hasTripleB t := by
  cases t with
  | nil => rfl
  | cons b t' =>
    cases t' with
    | nil => rfl
    | cons c t'' =>
      show ((decide (norm_word a = norm_word b) && decide (norm_word b = norm_word c))
          || hasTripleB (b :: c :: t'')) = hasTripleB (b :: c :: t'')
      rw [decide_eq_false (h b rfl), Bool.false_and, Bool.false_or]

lemma hasTripleB_tail {x : String} {t : List String} (h : hasTripleB (x :: t) = false) :
    hasTripleB t = false := by
  cases t with
  | nil => rfl
  | cons b t' =>
    cases t' with
    | nil => rfl
    | cons c t'' =>
      have h' : ((decide (norm_word x = norm_word b) && decide (norm_word b = norm_word c))
          || hasTripleB (b :: c :: t'')) = false := h
      exact (Bool.or_eq_false_iff.mp h').2

lemma hasAdjB_tail {x : String} {t : List String} (h : hasAdjB (x :: t) = false) :
    hasAdjB t = false := by
  cases t with
  | nil => rfl
  | cons b t' =>
    have h' : (decide (norm_word x = norm_word b) || hasAdjB (b :: t')) = false := h
    exact (Bool.or_eq_false_iff.mp h').2

lemma hasAdjB_cons_of_ne {a : String} {t : List String}
    (h : ∀ b, t.head? = some b → norm_word a ≠ norm_word b) :
    hasAdjB (a :: t) = hasAdjB t := by
  cases t with
  | nil => rfl
  | cons b t' =>
    show (decide (norm_word a = norm_word b) || hasAdjB (b :: t')) = hasAdjB (b :: t')
    rw [decide_eq_false (h b rfl), Bool.false_or]

lemma hasTripleB_dropWhile {p : String → Bool} {l : List String}
    (h : hasTripleB l = false) : hasTripleB (l.dropWhile p) = false := by
  induction l with
  | nil => exact h
  | cons x xs ih =>
    rw [List.dropWhile_cons]
    split
    · exact ih (hasTripleB_tail h)
    · exact h

lemma head?_takeWhile_true {p : String → Bool} {l : List String} {v : String}
    (h : (l.takeWhile p).head? = some v) : p v = true := by
  cases l with
  | nil => cases h
  | cons a as =>
    rw [List.takeWhile_cons] at h
    by_cases hpa : p a = true
    · rw [if_pos hpa] at h
      injection h with h
      rwa [← h]
    · rw [if_neg hpa] at h
      cases h

lemma takeWhile_two {p : String → Bool} {l : List String}
    (h : 2 ≤ (l.takeWhile p).length) :
    ∃ v1 v2 rest, l = v1 :: v2 :: rest ∧ p v1 = true ∧ p v2 = true := by
  cases l with
  | nil => simp at h
  | cons a as =>
    rw [List.takeWhile_cons] at h
    by_cases hpa : p a = true
    · rw [if_pos hpa] at h
      cases as with
      | nil => simp at h
      | cons b bs =>
        by_cases hpb : p b = true
        · exact ⟨a, b, bs, rfl, hpa, hpb⟩
        · rw [List.length_cons, List.takeWhile_cons, if_neg hpb] at h
          simp at h
    · rw [if_neg hpa] at h
      simp at h

lemma hasTripleB_cons_cons {w v1 : String} {X : List String}
    (hv : norm_word v1 = norm_word w)
    (hX : ∀ b, X.head? = some b → norm_word b ≠ norm_word w)
    (hXf : hasTripleB X = false) :
    hasTripleB (w :: v1 :: X) = false := by
  cases X with
  | nil => rfl
  | cons b xs =>
    have hb : norm_word b ≠ norm_word w := hX b rfl
    show ((decide (norm_word w = norm_word v1) && decide (norm_word v1 = norm_word b))
        || hasTripleB (v1 :: b :: xs)) = false
    rw [decide_eq_false (fun hc : norm_word v1 = norm_word b => hb (by rw [← hc, hv]))]
    rw [Bool.and_false, Bool.false_or]
    rw [hasTripleB_cons_of_ne (fun c hc => by
      injection hc with hc
      subst hc
      rw [hv]
      exact fun hcc => hb hcc.symm)]
    exact hXf

lemma cleanWords_no_triple_aux : ∀ (n : Nat) (l : List String), l.length ≤ n →
    hasTripleB (cleanWords l) = false := by
  intro n
  induction n with
  | zero =>
    intro l hl
    have hnil : l = [] := List.eq_nil_of_length_eq_zero (Nat.le_zero.mp hl)
    subst hnil
    rfl
  | succ n ih =>
    intro l hl
    cases l with
    | nil => rfl
    | cons w ws =>
      rw [cleanWords_run]
      have hd_le := (List.dropWhile_suffix
        (fun v => decide (norm_word v = norm_word w)) (l := ws)).length_le
      have hlen : ws.length + 1 ≤ n + 1 := by simpa using hl
      have hrest_tri : hasTripleB
          (cleanWords (ws.dropWhile (fun v => decide (norm_word v = norm_word w))))
          = false := ih _ (by omega)
      have hhead : ∀ b,
          (cleanWords (ws.dropWhile (fun v => decide (norm_word v = norm_word w)))).head?
            = some b → norm_word b ≠ norm_word w := by
        intro b hb
        cases hre : ws.dropWhile (fun v => decide (norm_word v = norm_word w)) with
        | nil => rw [hre] at hb; cases hb
        | cons r rs =>
          rw [hre, cleanWords_head] at hb
          injection hb with hb
          have hfalse : decide (norm_word r = norm_word w) = false :=
            head?_dropWhile_false (p := fun v => decide (norm_word v = norm_word w))
              (l := ws) (by rw [hre]; rfl)
          rw [← hb]
          exact of_decide_eq_false hfalse
      by_cases hc3 : 3 ≤ 1 + (ws.takeWhile (fun v => decide (norm_word v = norm_word w))).length
      · have h2 : 2 ≤ (ws.takeWhile (fun v => decide (norm_word v = norm_word w))).length := by
          omega
        obtain ⟨v1, v2, rest', hws, hp1, hp2⟩ := takeWhile_two h2
        have hhd : (ws.takeWhile (fun v => decide (norm_word v = norm_word w))).head?
            = some v1 := by
          rw [hws, List.takeWhile_cons, if_pos hp1]
          rfl
        rw [hhd]
        rw [show flushRun w (some v1)
            (1 + (ws.takeWhile (fun v => decide (norm_word v = norm_word w))).length)
            = w :: [v1] by unfold flushRun; rw [if_pos hc3]; rfl]
        show hasTripleB (w :: v1 :: cleanWords _) = false
        apply hasTripleB_cons_cons (of_decide_eq_true hp1) hhead hrest_tri
      · rw [show flushRun w
            (ws.takeWhile (fun v => decide (norm_word v = norm_word w))).head?
            (1 + (ws.takeWhile (fun v => decide (norm_word v = norm_word w))).length)
            = [w] by unfold flushRun; rw [if_neg hc3]]
        show hasTripleB (w :: cleanWords _) = false
        rw [hasTripleB_cons_of_ne (fun b hb => (hhead b hb).symm)]
        exact hrest_tri

lemma cleanWords_no_triple (l : List String) : hasTripleB (cleanWords l) = false :=
  cleanWords_no_triple_aux l.length l le_rfl

lemma cleanWords_no_adj_aux : ∀ (n : Nat) (l : List String), l.length ≤ n →
    hasTripleB l = false → hasAdjB (cleanWords l) = false := by
  intro n
  induction n with
  | zero =>
    intro l hl _
    have hnil : l = [] := List.eq_nil_of_length_eq_zero (Nat.le_zero.mp hl)
    subst hnil
    rfl
  | succ n ih =>
    intro l hl h
    cases l with
    | nil => rfl
    | cons w ws =>
      rw [cleanWords_run]
      have hd_le := (List.dropWhile_suffix
        (fun v => decide (norm_word v = norm_word w)) (l := ws)).length_le
      have hlen : ws.length + 1 ≤ n + 1 := by simpa using hl
      have hrest_adj : hasAdjB
          (cleanWords (ws.dropWhile (fun v => decide (norm_word v = norm_word w))))
          = false :=
        ih _ (by omega) (hasTripleB_dropWhile (hasTripleB_tail h))
      have hhead : ∀ b,
          (cleanWords (ws.dropWhile (fun v => decide (norm_word v = norm_word w)))).head?
            = some b → norm_word b ≠ norm_word w := by
        intro b hb
        cases hre : ws.dropWhile (fun v => decide (norm_word v = norm_word w)) with
        | nil => rw [hre] at hb; cases hb
        | cons r rs =>
          rw [hre, cleanWords_head] at hb
          injection hb with hb
          have hfalse : decide (norm_word r = norm_word w) = false :=
            head?_dropWhile_false (p := fun v => decide (norm_word v = norm_word w))
              (l := ws) (by rw [hre]; rfl)
          rw [← hb]
          exact of_decide_eq_false hfalse
      have hc3 : ¬ 3 ≤ 1 + (ws.takeWhile (fun v => decide (norm_word v = norm_word w))).length := by
        intro hc
        have h2 : 2 ≤ (ws.takeWhile (fun v => decide (norm_word v = norm_word w))).length := by
          omega
        obtain ⟨v1, v2, rest', hws, hp1, hp2⟩ := takeWhile_two h2
        have hn1 : norm_word v1 = norm_word w := of_decide_eq_true hp1
        have hn2 : norm_word v2 = norm_word w := of_decide_eq_true hp2
        rw [hws] at h
        have htr : ((decide (norm_word w = norm_word v1)
            && decide (norm_word v1 = norm_word v2))
            || hasTripleB (v1 :: v2 :: rest')) = false := h
        rw [decide_eq_true hn1.symm, decide_eq_true (hn1.trans hn2.symm)] at htr
        simp at htr
      rw [show flushRun w
          (ws.takeWhile (fun v => decide (norm_word v = norm_word w))).head?
          (1 + (ws.takeWhile (fun v => decide (norm_word v = norm_word w))).length)
          = [w] by unfold flushRun; rw [if_neg hc3]]
      show hasAdjB (w :: cleanWords _) = false
      rw [hasAdjB_cons_of_ne (fun b hb => (hhead b hb).symm)]
      exact hrest_adj

lemma cleanWords_no_adj (l : List String) (h : hasTripleB l = false) :
    hasAdjB (cleanWords l) = false :=
  cleanWords_no_adj_aux l.length l le_rfl h

lemma cleanWords_id_of_no_adj : ∀ (l : List String), hasAdjB l = false →
    cleanWords l = l := by
  intro l
  induction l with
  | nil => intro _; rfl
  | cons w ws ih =>
    intro h
    cases ws with
    | nil => rfl
    | cons v vs =>
      have hv : norm_word w ≠ norm_word v := by
        intro hc
        have h' : (decide (norm_word w = norm_word v) || hasAdjB (v :: vs)) = false := h
        rw [decide_eq_true hc] at h'
        simp at h'
      rw [cleanWords_run]
      rw [show (v :: vs).takeWhile (fun u => decide (norm_word u = norm_word w)) = [] by
        rw [List.takeWhile_cons, if_neg]
        simp
        exact fun hc => hv hc.symm]
      rw [show (v :: vs).dropWhile (fun u => decide (norm_word u = norm_word w)) = v :: vs by
        rw [List.dropWhile_cons, if_neg]
        simp
        exact fun hc => hv hc.symm]
      rw [ih (hasAdjB_tail h)]
      rfl

/-! ## C3: loop-cleaning idempotence -/

lemma pyWords_clean_word_loops {x : String} (h : ¬ (pyWords x).length < 3) :
    pyWords (clean_word_loops x) = cleanWords (pyWords x) := by
  rw [show clean_word_loops x = joinSpace (cleanWords (pyWords x)) by
    unfold clean_word_loops
    rw [if_neg h]]
  apply pyWords_joinSpace
  intro w hw
  exact pyWords_words w (cleanWords_mem hw)

/-- C3 counterexample: `_clean_word_loops` is not idempotent.  On
`"new new new new car"` (the spec's own loop-collapse example) one
application keeps the first two `new` (giving `"new new car"`), and a
second application collapses that pair of repeats to one (`"new car"`). -/
theorem c3_clean_loops_not_idempotent :
    clean_word_loops (clean_word_loops "new new new new car")
      ≠ clean_word_loops "new new new new car" := by decide

/-- C3 amended: two applications of `_clean_word_loops` reach a fixed
point — after the second pass no two consecutive words share a normal
form, so a third application changes nothing:
`cleanLoops (cleanLoops (cleanLoops x)) = cleanLoops (cleanLoops x)`
for every string `x` (idempotence of the claim fails only by one extra
application). -/
theorem c3_clean_loops_twice_idempotent (x : String) :
    clean_word_loops (clean_word_loops (clean_word_loops x))
      = clean_word_loops (clean_word_loops x) := by
  by_cases h1 : (pyWords x).length < 3
  · have hx : clean_word_loops x = x := by
      unfold clean_word_loops
      rw [if_pos h1]
    rw [hx, hx]
    exact hx
  · have hw1 : pyWords (clean_word_loops x) = cleanWords (pyWords x) :=
      pyWords_clean_word_loops h1
    by_cases h2 : (cleanWords (pyWords x)).length < 3
    · have hfx : clean_word_loops (clean_word_loops x) = clean_word_loops x := by
        show (if (pyWords (clean_word_loops x)).length < 3 then clean_word_loops x
          else joinSpace (cleanWords (pyWords (clean_word_loops x)))) = clean_word_loops x
        rw [hw1, if_pos h2]
      rw [hfx]
      exact hfx
    · have hfx : clean_word_loops (clean_word_loops x)
          = joinSpace (cleanWords (cleanWords (pyWords x))) := by
        show (if (pyWords (clean_word_loops x)).length < 3 then clean_word_loops x
          else joinSpace (cleanWords (pyWords (clean_word_loops x))))
          = joinSpace (cleanWords (cleanWords (pyWords x)))
        rw [hw1, if_neg h2]
      have hw2 : pyWords (clean_word_loops (clean_word_loops x))
          = cleanWords (cleanWords (pyWords x)) := by
        rw [hfx]
        apply pyWords_joinSpace
        intro w hw
        exact pyWords_words w (cleanWords_mem (cleanWords_mem hw))
      have hnadj : hasAdjB (cleanWords (cleanWords (pyWords x))) = false :=
        cleanWords_no_adj _ (cleanWords_no_triple _)
      by_cases h3 : (cleanWords (cleanWords (pyWords x))).length < 3
      · show (if (pyWords (clean_word_loops (clean_word_loops x))).length < 3
            then clean_word_loops (clean_word_loops x)
            else joinSpace (cleanWords (pyWords (clean_word_loops (clean_word_loops x)))))
          = clean_word_loops (clean_word_loops x)
        rw [hw2, if_pos h3]
      · show (if (pyWords (clean_word_loops (clean_word_loops x))).length < 3
            then clean_word_loops (clean_word_loops x)
            else joinSpace (cleanWords (pyWords (clean_word_loops (clean_word_loops x)))))
          = clean_word_loops (clean_word_loops x)
        rw [hw2, if_neg h3]
        rw [cleanWords_id_of_no_adj _ hnadj]
        exact hfx.symm

/-! ## C5: merge near-restatement -/

/-- C5 counterexample: the spec's example pair `("hello world today",
"hello world todai")` has word-set similarity 1/2 — not > 0.8 as the
claim asserts — so the near-restatement branch of `_merge_fragments` is
not taken, and the merge glues the two strings instead of returning the
longer input. -/
theorem c5_counterexample :
    calculate_similarity "hello world today" "hello world todai" = 1 / 2
    ∧ merge_fragments "hello world today" "hello world todai"
        = "hello world today hello world todai" := by
  constructor
  · have h : calculate_similarity "hello world today" "hello world todai"
        = ratDiv' 2 4 := by decide
    rw [h, ratDiv'_eq]
    norm_num
  · decide

/-- C5 amended: whenever the word-set similarity between the buffer and
the loop-cleaned fragment really exceeds 0.8, `_merge_fragments` returns
the buffer if it is strictly longer (in characters) than the loop-cleaned
fragment, and the loop-cleaned fragment otherwise, without concatenating;
the spec's example pair has similarity 1/2 ≤ 0.8 and is glued instead
(see the counterexample). -/
theorem c5_merge_near_restatement (b f : String) (hb : b ≠ "")
    (hs : calculate_similarity b (clean_word_loops f) > 4 / 5) :
    merge_fragments b f
      = if (clean_word_loops f).length < b.length then b
        else clean_word_loops f := by
  have h45 : (ratDiv' 4 5 : ℚ) = 4 / 5 := by
    rw [ratDiv'_eq]
    norm_num
  simp only [merge_fragments]
  rw [if_neg hb, h45, if_pos hs]

theorem c5_merge_near_restatement_witness :
    merge_fragments "Hello World" "hello world" = "hello world" := by
  have h := c5_merge_near_restatement "Hello World" "hello world" (by decide)
    (by rw [show calculate_similarity "Hello World" (clean_word_loops "hello world") = 1
        from by decide]
        norm_num)
  rw [h]
  decide

/-! ## C4: stop-time flush -/

/-- C4 counterexample: on a 50-character buffer ending in `"..."`, the
stop-time flush of `stop_translation_process` hands the *raw* buffer
(trailing ellipsis included) to the translation stage and leaves the
recent-history list untouched — it does not run the emission procedure
(no ellipsis stripping, no lower-cased history push) as the claim
states. -/
theorem c4_counterexample :
    (stop_translation_process
        ⟨"aaaaaaaaaaaaaaaaaaaaaaaaaaaaaaaaaaaaaaaaaaaaaaa...", some 1, some 1, []⟩).2
      = some "aaaaaaaaaaaaaaaaaaaaaaaaaaaaaaaaaaaaaaaaaaaaaaa..."
    ∧ ellipsis_strip "aaaaaaaaaaaaaaaaaaaaaaaaaaaaaaaaaaaaaaaaaaaaaaa..."
      ≠ "aaaaaaaaaaaaaaaaaaaaaaaaaaaaaaaaaaaaaaaaaaaaaaa..."
    ∧ (stop_translation_process
        ⟨"aaaaaaaaaaaaaaaaaaaaaaaaaaaaaaaaaaaaaaaaaaaaaaa...", some 1, some 1, []⟩).1.recent
      = [] := by decide

/-- C4 amended: when the stripped buffer is non-empty and the buffer has
at least `min_sentence_length` (50) characters, the stop-time flush emits
exactly one sentence equal to the raw buffer text and resets the buffer,
`startedAt` and `lastFragmentAt`; the recent-history list is not touched
and no ellipsis stripping takes place. -/
theorem c4_flush_amended (s : AccState) (h1 : pyStrip s.buffer ≠ "")
    (h2 : 50 ≤ s.buffer.length) :
    stop_translation_process s = (⟨"", none, none, s.recent⟩, some s.buffer) := by
  unfold stop_translation_process
  rw [if_pos ⟨h1, h2⟩]

theorem c4_flush_amended_witness :
    stop_translation_process
        ⟨"aaaaaaaaaaaaaaaaaaaaaaaaaaaaaaaaaaaaaaaaaaaaaaaaaa", some 1, some 1, ["x"]⟩
      = (⟨"", none, none, ["x"]⟩,
          some "aaaaaaaaaaaaaaaaaaaaaaaaaaaaaaaaaaaaaaaaaaaaaaaaaa") :=
  c4_flush_amended _ (by decide) (by decide)

/-! ## C10: four trailing dots -/

lemma stripChars_eq_self {l : List Char}
    (h1 : ∀ c, l.head? = some c → isSpaceCh c = false)
    (h2 : ∀ c, l.getLast? = some c → isSpaceCh c = false) : stripChars l = l := by
  unfold stripChars
  rw [dropWhile_eq_self_of_head h1]
  rw [dropWhile_eq_self_of_head (fun c hc => h2 c (by rwa [List.head?_reverse] at hc))]
  exact List.reverse_reverse l

lemma ellipsisLoopF_succ (fuel : Nat) (l : List Char) :
    ellipsisLoopF (fuel + 1) l
      = if endsDots l then ellipsisLoopF fuel (stripChars (l.take (l.length - 3))) else l :=
  rfl

lemma endsDots_eq_true_iff (l : List Char) :
    endsDots l = true ↔ (['.', '.', '.'] <:+ l ∨ ['.', '.', '.', '.'] <:+ l) := by
  unfold endsDots
  rw [Bool.or_eq_true, List.isSuffixOf_iff_suffix, List.isSuffixOf_iff_suffix]

lemma ellipsis_strip_four_dots (w : String) (hne : w ≠ "") (htrim : pyStrip w = w)
    (hlast : w.data.getLast? ≠ some '.') :
    ellipsis_strip (w ++ "....") = w ++ "." := by
  have hstrip : stripChars w.data = w.data := congrArg String.data htrim
  have hdrop : List.dropWhile isSpaceCh w.data = w.data := by
    have h := dropWhile_stripChars w.data
    rwa [hstrip] at h
  have hheadns : ∀ c, w.data.head? = some c → isSpaceCh c = false :=
    fun c hc => head_not_space_of_stripped hdrop hc
  have hdata : (w ++ "....").data = w.data ++ ['.', '.', '.', '.'] := by
    rw [String.data_append]
  have hdata1 : (w ++ ".").data = w.data ++ ['.'] := by
    rw [String.data_append]
  have hstrip4 : stripChars (w.data ++ ['.', '.', '.', '.']) = w.data ++ ['.', '.', '.', '.'] := by
    apply stripChars_eq_self
    · intro c hc
      apply hheadns c
      obtain ⟨d, ds, hD⟩ := List.exists_cons_of_ne_nil (str_data_ne hne)
      rw [hD] at hc ⊢
      simpa using hc
    · intro c hc
      rw [show w.data ++ ['.', '.', '.', '.'] = (w.data ++ ['.', '.', '.']) ++ ['.'] by simp,
        List.getLast?_concat] at hc
      injection hc with hc
      subst hc
      rfl
  have hstrip1 : stripChars (w.data ++ ['.']) = w.data ++ ['.'] := by
    apply stripChars_eq_self
    · intro c hc
      apply hheadns c
      obtain ⟨d, ds, hD⟩ := List.exists_cons_of_ne_nil (str_data_ne hne)
      rw [hD] at hc ⊢
      simpa using hc
    · intro c hc
      rw [List.getLast?_concat] at hc
      injection hc with hc
      subst hc
      rfl
  have hdots4 : endsDots (w.data ++ ['.', '.', '.', '.']) = true := by
    rw [endsDots_eq_true_iff]
    left
    exact ⟨w.data ++ ['.'], by simp⟩
  have hdots1 : endsDots (w.data ++ ['.']) = false := by
    rw [← Bool.not_eq_true, endsDots_eq_true_iff]
    rintro (⟨t, ht⟩ | ⟨t, ht⟩)
    · rw [show t ++ ['.', '.', '.'] = (t ++ ['.', '.']) ++ ['.'] by simp] at ht
      rw [List.append_left_inj] at ht
      apply hlast
      rw [← ht, show t ++ ['.', '.'] = (t ++ ['.']) ++ ['.'] by simp, List.getLast?_concat]
    · rw [show t ++ ['.', '.', '.', '.'] = (t ++ ['.', '.', '.']) ++ ['.'] by simp] at ht
      rw [List.append_left_inj] at ht
      apply hlast
      rw [← ht, show t ++ ['.', '.', '.'] = (t ++ ['.', '.']) ++ ['.'] by simp,
        List.getLast?_concat]
  have hlen4 : (w.data ++ ['.', '.', '.', '.']).length = w.data.length + 4 := by simp
  apply String.ext
  show ellipsisLoopF (w ++ "....").data.length (stripChars (w ++ "....").data)
    = (w ++ ".").data
  rw [hdata, hdata1, hstrip4]
  rw [show (w.data ++ ['.', '.', '.', '.']).length = (w.data.length + 3) + 1 by simp]
  rw [ellipsisLoopF_succ, if_pos hdots4]
  rw [hlen4]
  rw [show w.data.length + 4 - 3 = w.data.length + 1 by omega]
  rw [show w.data.length + 1 = w.data.length + 1 from rfl]
  rw [show (w.data ++ ['.', '.', '.', '.']).take (w.data.length + 1)
      = w.data ++ ['.'] by
    rw [show w.data.length + 1 = w.data.length + 1 from rfl, List.take_append 1]
    rfl]
  rw [hstrip1]
  rw [show w.data.length + 3 = (w.data.length + 2) + 1 by omega]
  rw [ellipsisLoopF_succ, if_neg (by rw [hdots1]; exact Bool.false_ne_true)]

/-- C10: a fragment or buffer ending in exactly four dots is not treated
as a trailing ellipsis: one pass of the stripping loop removes exactly
three characters, leaving a single trailing period, so
`_is_sentence_complete` judges the text complete, and the fragment
cleaning in `on_transcription` (the same loop) retains the trailing
period.  Here `w` is any non-empty trimmed text whose last character is
not a dot. -/
theorem c10_four_dots_complete (w : String) (hne : w ≠ "") (htrim : pyStrip w = w)
    (hlast : w.data.getLast? ≠ some '.') :
    ellipsis_strip (w ++ "....") = w ++ "."
    ∧ is_sentence_complete (w ++ "....") = true := by
  have h := ellipsis_strip_four_dots w hne htrim hlast
  refine ⟨h, ?_⟩
  show (match (ellipsis_strip (w ++ "....")).data.getLast? with
    | none => false
    | some c => c = '.' || c = '!' || c = '?' || c = ';') = true
  rw [h, show (w ++ ".").data = w.data ++ ['.'] by rw [String.data_append],
    List.getLast?_concat]
  rfl

theorem c10_four_dots_complete_witness :
    ellipsis_strip ("word" ++ "....") = "word" ++ "."
    ∧ is_sentence_complete ("word" ++ "....") = true :=
  c10_four_dots_complete "word" (by decide) (by decide) (by decide)

/-! ## C2: the overlap scans compute the largest overlap -/

lemma overlapAsc_eq_findGreatest (bw fw : List String) :
    overlapAsc bw fw = Nat.findGreatest (overlapAt bw fw) (min bw.length fw.length) := by
  unfold overlapAsc
  generalize min bw.length fw.length = m
  induction m with
  | zero => rfl
  | succ n ih =>
    rw [List.range'_concat, List.foldl_append, List.foldl_cons, List.foldl_nil]
    rw [ih, Nat.findGreatest_succ]
    rw [show 1 + 1 * n = n + 1 by omega]

lemma overlapLen_eq_findGreatest (bw fw : List String) :
    overlapLen bw fw = Nat.findGreatest (overlapAt bw fw) (min bw.length fw.length) := by
  unfold overlapLen
  cases hf : (List.range' 1 (min bw.length fw.length - 1)).find?
      (fun i => decide (overlapAt bw fw i)) with
  | none => exact overlapAsc_eq_findGreatest bw fw
  | some i =>
    show max (overlapAsc bw fw) i = _
    rw [overlapAsc_eq_findGreatest]
    have hp := List.find?_some hf
    have hPi : overlapAt bw fw i := of_decide_eq_true hp
    have hmem := List.mem_of_find?_eq_some hf
    rw [List.mem_range'] at hmem
    obtain ⟨j, hj, hij⟩ := hmem
    have hile : i ≤ min bw.length fw.length := by omega
    exact Nat.max_eq_left (Nat.le_findGreatest hile hPi)

lemma drop_length_sub_one {α : Type*} {l : List α} {a : α} (h : l.getLast? = some a) :
    l.drop (l.length - 1) = [a] := by
  rcases List.eq_nil_or_concat l with rfl | ⟨L, b, rfl⟩
  · cases h
  · rw [List.concat_eq_append] at h ⊢
    rw [List.getLast?_concat] at h
    injection h with h
    subst h
    rw [List.length_append, List.length_singleton]
    rw [show L.length + 1 - 1 = L.length by omega]
    rw [List.drop_left]

/-- C2: under the claim's hypotheses (non-empty buffer, similarity of the
buffer and the loop-cleaned fragment at most 0.8), `_merge_fragments`
computes exactly the spec's formula: the loop-cleaned, stripped
concatenation of the buffer, one space, and the fragment's words after
dropping the largest matching overlap `k` (the whole loop-cleaned
fragment when `k = 0`).  In particular the redundant second overlap scan
and the dead single-word-duplicate branch of the code do not change the
result. -/
theorem c2_merge_overlap (buffer fragment : String) (hb : buffer ≠ "")
    (hs : calculate_similarity buffer (clean_word_loops fragment) ≤ 4 / 5) :
    merge_fragments buffer fragment = specMergeResult buffer fragment := by
  have h45 : (ratDiv' 4 5 : ℚ) = 4 / 5 := by
    rw [ratDiv'_eq]
    norm_num
  have hnotgt : ¬ calculate_similarity buffer (clean_word_loops fragment) > ratDiv' 4 5 := by
    rw [h45]
    exact not_lt.mpr hs
  simp only [merge_fragments, specMergeResult, specOverlap]
  rw [if_neg hb, if_neg hnotgt, overlapLen_eq_findGreatest]
  by_cases hk0 : Nat.findGreatest
      (overlapAt (pyWords buffer) (pyWords (clean_word_loops fragment)))
      (min (pyWords buffer).length (pyWords (clean_word_loops fragment)).length) = 0
  · rw [hk0]
    rw [if_neg (lt_irrefl 0)]
    rw [if_pos rfl]
    rw [if_neg ?_]
    rintro ⟨hbw, hfw, hlast⟩
    obtain ⟨g, hg⟩ : ∃ g, (pyWords buffer).getLast? = some g := by
      cases hgl : (pyWords buffer).getLast? with
      | none => exact absurd (List.getLast?_eq_none_iff.mp hgl) hbw
      | some g => exact ⟨g, rfl⟩
    obtain ⟨f0, fr, hfr⟩ := List.exists_cons_of_ne_nil hfw
    have hhd : (pyWords (clean_word_loops fragment)).head? = some f0 := by
      rw [hfr]
      rfl
    have hgf : g = f0 := by
      rw [hg, hhd] at hlast
      injection hlast
    have h1 : overlapAt (pyWords buffer) (pyWords (clean_word_loops fragment)) 1 := by
      unfold overlapAt
      rw [drop_length_sub_one hg, hfr, hgf]
      rfl
    have hmin : 1 ≤ min (pyWords buffer).length
        (pyWords (clean_word_loops fragment)).length := by
      have hb1 : 0 < (pyWords buffer).length := List.length_pos.mpr hbw
      have hf1 : 0 < (pyWords (clean_word_loops fragment)).length := List.length_pos.mpr hfw
      omega
    have := Nat.le_findGreatest hmin h1
    omega
  · rw [if_pos (Nat.pos_of_ne_zero hk0), if_neg hk0]

theorem c2_merge_overlap_witness :
    merge_fragments "I went to the" "to the store" = "I went to the store"
    ∧ specMergeResult "I went to the" "to the store" = "I went to the store" := by
  have hs : calculate_similarity "I went to the" (clean_word_loops "to the store") ≤ 4 / 5 := by
    rw [show calculate_similarity "I went to the" (clean_word_loops "to the store")
        = ratDiv' 2 5 from by decide, ratDiv'_eq]
    norm_num
  have h := c2_merge_overlap "I went to the" "to the store" (by decide) hs
  exact ⟨h.trans (by decide), by decide⟩

/-! ## Non-emptiness of the merged buffer -/

lemma clean_word_loops_ne_empty {t : String} (h : t ≠ "") : clean_word_loops t ≠ "" := by
  simp only [clean_word_loops]
  split
  · exact h
  · rename_i hlen
    apply joinSpace_ne_empty
    · apply cleanWords_ne_nil
      intro hc
      rw [hc] at hlen
      simp at hlen
    · intro w hw
      exact (pyWords_words w (cleanWords_mem hw)).1

lemma char_of_pyWords_ne_nil {s : String} (h : pyWords s ≠ []) :
    ∃ c ∈ s.data, isSpaceCh c = false := by
  by_contra hc
  push_neg at hc
  apply h
  rw [pyWords_eq_nil_iff]
  intro c hcm
  cases hb : isSpaceCh c
  · exact absurd hb (hc c hcm)
  · rfl

lemma char_of_clean_word_loops {t : String} {c : Char} (hc : c ∈ t.data)
    (hns : isSpaceCh c = false) :
    ∃ d ∈ (clean_word_loops t).data, isSpaceCh d = false := by
  simp only [clean_word_loops]
  split
  · exact ⟨c, hc, hns⟩
  · rename_i hlen
    have hW : pyWords t ≠ [] := by
      intro hc'
      rw [hc'] at hlen
      simp at hlen
    obtain ⟨w, ws, hw⟩ := List.exists_cons_of_ne_nil (cleanWords_ne_nil hW)
    have hwmem : w ∈ pyWords t := cleanWords_mem (hw ▸ List.mem_cons_self w ws)
    obtain ⟨hwne, hwch⟩ := pyWords_words w hwmem
    obtain ⟨d, ds, hd⟩ := List.exists_cons_of_ne_nil (str_data_ne hwne)
    refine ⟨d, ?_, ?_⟩
    · apply mem_joinSpace_data (w := w)
      · rw [hw]
        exact List.mem_cons_self w ws
      · rw [hd]
        exact List.mem_cons_self d ds
    · exact hwch d (by rw [hd]; exact List.mem_cons_self d ds)

lemma pyStrip_ne_empty_of_char {s : String} {c : Char} (hc : c ∈ s.data)
    (hns : isSpaceCh c = false) : pyStrip s ≠ "" := by
  intro he
  have hd : stripChars s.data = [] := congrArg String.data he
  have hall := stripChars_all_space hd c hc
  rw [hns] at hall
  cases hall

lemma merged_ne_empty_of_char {m : String} (h : ∃ c ∈ m.data, isSpaceCh c = false) :
    pyStrip (clean_word_loops m) ≠ "" := by
  obtain ⟨c, hc, hns⟩ := h
  obtain ⟨d, hd, hdns⟩ := char_of_clean_word_loops hc hns
  exact pyStrip_ne_empty_of_char hd hdns

lemma char_mem_append_left {a x : String} {c : Char} (h : c ∈ a.data) :
    c ∈ (a ++ x).data := by
  rw [String.data_append]
  exact List.mem_append.mpr (Or.inl h)

lemma char_mem_append_right {a x : String} {c : Char} (h : c ∈ x.data) :
    c ∈ (a ++ x).data := by
  rw [String.data_append]
  exact List.mem_append.mpr (Or.inr h)

lemma overlapLen_pos_min {bw fw : List String} (h : 0 < overlapLen bw fw) :
    0 < min bw.length fw.length := by
  by_contra hmin
  have h0 : min bw.length fw.length = 0 := by omega
  have hz : overlapLen bw fw = 0 := by
    unfold overlapLen overlapAsc
    rw [h0]
    rfl
  omega

lemma merge_fragments_ne_empty {b t : String} (ht : t ≠ "")
    (htr : pyStrip t = t) : merge_fragments b t ≠ "" := by
  have hstrip : stripChars t.data = t.data := congrArg String.data htr
  have hdrop : List.dropWhile isSpaceCh t.data = t.data := by
    have h := dropWhile_stripChars t.data
    rwa [hstrip] at h
  obtain ⟨c, cs, hcs⟩ := List.exists_cons_of_ne_nil (str_data_ne ht)
  have hcns : isSpaceCh c = false := head_not_space_of_stripped hdrop (by rw [hcs]; rfl)
  have hcmem : c ∈ t.data := by
    rw [hcs]
    exact List.mem_cons_self c cs
  have hnfchar : ∃ d ∈ (clean_word_loops t).data, isSpaceCh d = false :=
    char_of_clean_word_loops hcmem hcns
  simp only [merge_fragments]
  split
  · exact clean_word_loops_ne_empty ht
  · rename_i hb
    split
    · split
      · exact hb
      · rename_i hlen
        intro hne
        apply hb
        have hz : (clean_word_loops t).length = 0 := by
          rw [hne]
          rfl
        have hbl : b.data.length = 0 := by
          have hle : ¬ (clean_word_loops t).length < b.length := hlen
          have : b.length = b.data.length := rfl
          omega
        exact String.ext (List.eq_nil_of_length_eq_zero hbl)
    · split
      · rename_i hov
        apply merged_ne_empty_of_char
        have hbw : pyWords b ≠ [] := by
          intro hnil
          have := overlapLen_pos_min hov
          rw [hnil] at this
          simp at this
        obtain ⟨d, hd, hdns⟩ := char_of_pyWords_ne_nil hbw
        exact ⟨d, char_mem_append_left (char_mem_append_left hd), hdns⟩
      · split
        · rename_i hcond
          apply merged_ne_empty_of_char
          obtain ⟨d, hd, hdns⟩ := char_of_pyWords_ne_nil hcond.1
          exact ⟨d, char_mem_append_left (char_mem_append_left hd), hdns⟩
        · apply merged_ne_empty_of_char
          obtain ⟨d, hd, hdns⟩ := hnfchar
          exact ⟨d, char_mem_append_right hd, hdns⟩

/-! ## C1: completion by punctuation -/

/-- C1: when an `on_transcription` call passes the input guards (the raw
text does not strip to empty, the ellipsis-cleaned text is non-empty and
is not an exact lower-case duplicate of the buffer) and the merged buffer
passes the punctuation completion test with an ellipsis-stripped length
of at least 20 characters, the call emits exactly one completed sentence
equal to the ellipsis-stripped merged buffer, appends its lower-cased
form to the recent history (with capacity-10 eviction), and resets the
buffer with `startedAt` and `lastFragmentAt` cleared. -/
theorem c1_complete_sentence_emission (s : AccState) (text : String) (now : ℚ)
    (h1 : pyStrip text ≠ "")
    (h2 : ellipsis_strip text ≠ "")
    (h3 : lowerStr (ellipsis_strip text) ≠ pyStrip (lowerStr s.buffer))
    (hc : is_sentence_complete (merge_fragments s.buffer (ellipsis_strip text)) = true)
    (hl : 20 ≤ (ellipsis_strip (merge_fragments s.buffer (ellipsis_strip text))).length) :
    on_transcription s text now
      = (⟨"", none, none,
          pushRecent s.recent
            (lowerStr (ellipsis_strip (merge_fragments s.buffer (ellipsis_strip text))))⟩,
        some (ellipsis_strip (merge_fragments s.buffer (ellipsis_strip text)))) := by
  simp only [on_transcription, emitStep]
  rw [if_neg h1, if_neg h2, if_neg h3, hc, Bool.true_or, if_pos rfl,
    if_neg (not_lt.mpr hl)]

theorem c1_complete_sentence_emission_witness :
    on_transcription accInit "This is a complete sentence." 1
      = (⟨"", none, none, ["this is a complete sentence."]⟩,
          some "This is a complete sentence.") := by
  have h := c1_complete_sentence_emission accInit "This is a complete sentence." 1
    (by decide) (by decide) (by decide) (by decide) (by decide)
  exact h.trans (by decide)

/-! ## C6: minimum emission length -/

lemma emitStep_snd_length (s : AccState) (buf c : String)
    (h : (emitStep s buf).2 = some c) : 20 ≤ c.length := by
  simp only [emitStep] at h
  split at h
  · exact absurd h (by simp)
  · rename_i hlen
    have h' : some (ellipsis_strip buf) = some c := h
    injection h' with h'
    rw [← h']
    omega

/-- C6: every sentence handed to the translation stage has at least 20
characters: an `on_transcription` emission passes the 20-character guard,
a stop-time flush emission has at least `min_sentence_length = 50`
characters, and a buffer that passes the punctuation completion test but
is shorter than 20 characters after ellipsis stripping is discarded
silently — no emission, recent history untouched, buffer and both
timestamps reset. -/
theorem c6_min_emission_length :
    (∀ (s : AccState) (text : String) (now : ℚ) (c : String),
      (on_transcription s text now).2 = some c → 20 ≤ c.length)
    ∧ (∀ (s : AccState) (c : String),
      (stop_translation_process s).2 = some c → 20 ≤ c.length)
    ∧ (∀ (s : AccState) (text : String) (now : ℚ),
      pyStrip text ≠ "" →
      ellipsis_strip text ≠ "" →
      lowerStr (ellipsis_strip text) ≠ pyStrip (lowerStr s.buffer) →
      is_sentence_complete (merge_fragments s.buffer (ellipsis_strip text)) = true →
      (ellipsis_strip (merge_fragments s.buffer (ellipsis_strip text))).length < 20 →
      on_transcription s text now = (⟨"", none, none, s.recent⟩, none)) := by
  refine ⟨?_, ?_, ?_⟩
  · intro s text now c h
    simp only [on_transcription] at h
    split at h
    · exact absurd h (by simp)
    · split at h
      · exact absurd h (by simp)
      · split at h
        · exact absurd h (by simp)
        · split at h
          · split at h
            · exact emitStep_snd_length _ _ _ h
            · exact absurd h (by simp)
          · split at h
            · exact emitStep_snd_length _ _ _ h
            · exact absurd h (by simp)
  · intro s c h
    unfold stop_translation_process at h
    split at h
    · rename_i hcond
      have h' : some s.buffer = some c := h
      injection h' with h'
      rw [← h']
      exact le_trans (by norm_num) hcond.2
    · exact absurd h (by simp)
  · intro s text now hh1 hh2 hh3 hc hlen
    simp only [on_transcription, emitStep]
    rw [if_neg hh1, if_neg hh2, if_neg hh3, hc, Bool.true_or, if_pos rfl, if_pos hlen]

theorem c6_min_emission_length_witness :
    on_transcription accInit "Too short." 1 = (⟨"", none, none, []⟩, none) :=
  c6_min_emission_length.2.2 accInit "Too short." 1 (by decide) (by decide) (by decide)
    (by decide) (by decide)

/-! ## C7: the emptiness invariant -/

/-- C7: the accumulator maintains the invariant that the buffer text is
empty iff `buffer_start_time` is `None` iff `last_fragment_time` is
`None`: it holds in the initial state and is preserved by every
`on_transcription` call (early-return paths, too-short discard, emission
and plain accumulation alike) and by the stop-time flush. -/
theorem c7_buffer_time_invariant :
    AccInv accInit
    ∧ (∀ (s : AccState) (text : String) (now : ℚ),
        AccInv s → AccInv (on_transcription s text now).1)
    ∧ (∀ s : AccState, AccInv s → AccInv (stop_translation_process s).1) := by
  refine ⟨⟨iff_of_true rfl rfl, iff_of_true rfl rfl⟩, ?_, ?_⟩
  · intro s text now hInv
    simp only [on_transcription, emitStep]
    split
    · exact hInv
    · split
      · exact hInv
      · split
        · exact hInv
        · rename_i hne _
          have htrim : pyStrip (ellipsis_strip text) = ellipsis_strip text :=
            String.ext (ellipsis_strip_stripped text)
          have hbuf : merge_fragments s.buffer (ellipsis_strip text) ≠ "" :=
            merge_fragments_ne_empty hne htrim
          split
          · split
            · split
              · exact ⟨iff_of_true rfl rfl, iff_of_true rfl rfl⟩
              · exact ⟨iff_of_true rfl rfl, iff_of_true rfl rfl⟩
            · exact ⟨iff_of_false hbuf (by simp), iff_of_false hbuf (by simp)⟩
          · rename_i hsb
            split
            · split
              · exact ⟨iff_of_true rfl rfl, iff_of_true rfl rfl⟩
              · exact ⟨iff_of_true rfl rfl, iff_of_true rfl rfl⟩
            · refine ⟨iff_of_false hbuf ?_, iff_of_false hbuf (by simp)⟩
              intro hn
              exact hsb (hInv.1.mpr hn)
  · intro s _
    simp only [stop_translation_process]
    split
    · exact ⟨iff_of_true rfl rfl, iff_of_true rfl rfl⟩
    · exact ⟨iff_of_true rfl rfl, iff_of_true rfl rfl⟩

theorem c7_buffer_time_invariant_witness :
    AccInv (on_transcription accInit "hello there friend" 1).1 :=
  c7_buffer_time_invariant.2.1 accInit "hello there friend" 1
    ⟨iff_of_true rfl rfl, iff_of_true rfl rfl⟩
